import Mathlib

/-!
Shallow embedding of the sphinx-js extension sources (renderers.py,
directives.py, generator.py) and proofs about the claims on member
inclusion ordering, option parsing, error conversion and stub generation.

Python machine-level conventions used throughout the embedding:
Python exceptions become Option results, Python sets become lists read up
to membership, Python strings become Lean String values, and external
collaborators (the analyzer, the Jinja template, the filesystem paths
helper os.path.abspath) become explicit function parameters.
-/

/-- Stable insertion used by the insertion sort below: x is placed before
the first element y with lt y x = false, so elements that compare equal
keep their original relative order (the behaviour of Python list.sort). -/
def insertStable (lt : α → α → Bool) (x : α) : List α → List α
  | [] => [x]
  | y :: ys => if lt y x then y :: insertStable lt x ys else x :: y :: ys

/-- Stable ascending sort, modelling Python sorted() / list.sort(), which
are stable. Any stable sort agrees with this one for a strict weak order. -/
def stableSort (lt : α → α → Bool) : List α → List α
  | [] => []
  | x :: xs => insertStable lt x (stableSort lt xs)

/-- Concatenation of the images of f, used to state grouping properties of
the stable sorts appearing in the sources. -/
def catMap (f : α → List β) : List α → List β
  | [] => []
  | x :: xs => f x ++ catMap f xs

/-- Index of the first occurrence of x, modelling Python list.index (the
result is meaningful only when x is a member of the list). -/
def firstIndex [DecidableEq α] (x : α) : List α → Nat
  | [] => 0
  | y :: ys => if y = x then 0 else firstIndex x ys + 1

/-- The sublist keeping only the first occurrence of every element, in
order of first occurrence. -/
def dedupFirst [DecidableEq α] : List α → List α
  | [] => []
  | x :: xs => x :: (dedupFirst xs).filter (fun y => decide (y ≠ x))

/-- One member of a documented object, with the fields of the external IR
that renderers.py reads: the short name, whether the IR object is a
Function instance, and the segments of obj.path. -/
structure Member where
  name : String
  isFunction : Bool
  path : List String
deriving DecidableEq

/-- Lexicographic comparison of path segment lists, as Python compares
lists of strings. -/
def pathLt : List String → List String → Bool
  | [], [] => false
  | [], _ :: _ => true
  | _ :: _, [] => false
  | a :: as, b :: bs => if a < b then true else if b < a then false else pathLt as bs

/-- Comparison by the sort key of sort_attributes_first_then_by_path in
renderers.py: the Python tuple (isinstance(obj, Function),
obj.path.segments) compared lexicographically, with False before True. -/
def memberLt (a b : Member) : Bool :=
  if a.isFunction = b.isFunction then pathLt a.path b.path
  else !a.isFunction && b.isFunction

/-- Python sorted(members, key=sort_attributes_first_then_by_path). -/
def sortMembers (ms : List Member) : List Member :=
  stableSort memberLt ms

/-- Embedding of _members_to_include in renderers.py. The include
argument may be None (Python passes None when the option has no value).
The result is none exactly when Python would raise ValueError from
include.index, which happens when some filtered member name is absent
from the final include list (only possible for a member literally
named "*" when the list holds a single "*"). -/
def members_to_include (members : List Member) (includeArg : Option (List String)) :
    Option (List Member) :=
  let inc := includeArg.getD []
  if inc.isEmpty then some (sortMembers members)
  else
    let starred := decide ("*" ∈ inc)
    let notIncluded :=
      (sortMembers (members.filter (fun m => !decide (m.name ∈ inc)))).map (fun m => m.name)
    let inc2 :=
      if starred then
        inc.take (firstIndex "*" inc) ++ notIncluded ++ inc.drop (firstIndex "*" inc + 1)
      else inc
    let includedMembers :=
      members.filter (fun m => decide (m.name ∈ inc) || (starred && decide (m.name ∈ notIncluded)))
    if includedMembers.all (fun m => decide (m.name ∈ inc2)) then
      some (stableSort (fun a b => decide (firstIndex a.name inc2 < firstIndex b.name inc2))
        includedMembers)
    else none

/-- The members of ms named in names, grouped by name in order of the
first occurrence of the name, members of equal name kept in their order
in ms. This is the specification shape used to settle the ordering
claims about _members_to_include. -/
def selectByNames (ms : List Member) (names : List String) : List Member :=
  catMap (fun n => ms.filter (fun m => decide (m.name = n))) (dedupFirst names)

/-- Python whitespace test for str.strip and the regex class backslash-s
(ASCII range: space, tab, newline, carriage return, vertical tab,
form feed). -/
def isPySpace (c : Char) : Bool :=
  decide (c = ' ') || decide (c = '\t') || decide (c = '\n') || decide (c = '\r')
    || decide (c = '\x0b') || decide (c = '\x0c')

/-- Python str.strip on a character list. -/
def pyTrimChars (cs : List Char) : List Char :=
  ((cs.dropWhile isPySpace).reverse.dropWhile isPySpace).reverse

/-- Python str.strip. -/
def pyStrip (s : String) : String := String.mk (pyTrimChars s.data)

/-- Python str.split on a one character separator: always at least one
piece, the empty string splits to one empty piece. -/
def pySplitChar (sep : Char) : List Char → List (List Char)
  | [] => [[]]
  | c :: cs =>
    let r := pySplitChar sep cs
    if c = sep then [] :: r
    else
      match r with
      | [] => [[c]]
      | t :: ts => (c :: t) :: ts

/-- Embedding of _members_to_exclude in directives.py:
set(a.strip() for a in (arg or "").split(",")), with the set represented
as the list of pieces (read up to membership). -/
def members_to_exclude (arg : Option String) : List String :=
  (pySplitChar ',' (arg.getD "").data).map (fun cs => String.mk (pyTrimChars cs))

/-- Python str.startswith, on the character lists of the strings. -/
def pyStartsWith (s pre : String) : Bool := pre.data.isPrefixOf s.data

/-- Python str.endswith, on the character lists of the strings. -/
def pyEndsWith (s suf : String) : Bool := suf.data.isSuffixOf s.data

/-- Space or tab, the class [ \t] of the unwrapped regex. -/
def isBlankC (c : Char) : Bool := decide (c = ' ') || decide (c = '\t')

/-- Carriage return or newline, the class [\r\n] of the unwrapped regex. -/
def isBreakC (c : Char) : Bool := decide (c = '\r') || decide (c = '\n')

/-- Whether the regex of unwrapped matches at the start of cs: after
greedily skipping blanks there is at least one line break character. -/
def breakStart (cs : List Char) : Bool :=
  match cs.dropWhile isBlankC with
  | [] => false
  | c :: _ => isBreakC c

/-- The remainder of cs after the greedy match of the unwrapped regex
starting at the head of cs. -/
def afterBreak (cs : List Char) : List Char :=
  ((cs.dropWhile isBlankC).dropWhile isBreakC).dropWhile isBlankC

/-- Embedding of re.sub applied to the fixed pattern of unwrapped in
renderers.py: scan left to right, and at each position either replace the
leftmost greedy match of blanks-breaks-blanks by a single space and
continue after it, or emit the character and move on. -/
def unwrappedAux : List Char → List Char
  | [] => []
  | c :: cs =>
    if h : breakStart (c :: cs) = true then
      ' ' :: unwrappedAux (afterBreak (c :: cs))
    else
      c :: unwrappedAux cs
termination_by l => l.length
decreasing_by
  · unfold afterBreak
    unfold breakStart at h
    rcases hd : List.dropWhile isBlankC (c :: cs) with _ | ⟨b, t⟩
    · rw [hd] at h
      simp at h
    · rw [hd] at h
      have hb : isBreakC b = true := h
      have h1 : List.dropWhile isBreakC (b :: t) = List.dropWhile isBreakC t := by
        rw [List.dropWhile_cons]
        simp [hb]
      rw [h1]
      have h2 : (List.dropWhile isBlankC (List.dropWhile isBreakC t)).length ≤ t.length :=
        le_trans (List.dropWhile_sublist _).length_le (List.dropWhile_sublist _).length_le
      have h3 : (b :: t).length ≤ (c :: cs).length := by
        rw [← hd]
        exact (List.dropWhile_sublist _).length_le
      simp only [List.length_cons] at h3 ⊢
      omega
  · simp

/-- Embedding of unwrapped in renderers.py:
sub(r"[ \t]*[\r\n]+[ \t]*", " ", text). -/
def unwrapped (s : String) : String := String.mk (unwrappedAux s.data)

/-- One parameter or property of the external IR, with the attributes the
field formatters in renderers.py read. Python None string attributes are
embedded as the empty string, matching their falsiness. -/
structure ParamIR where
  name : String
  type : String
  description : String
  isOptional : Bool
  optional : String
deriving DecidableEq

/-- One return value of the external IR. -/
structure ReturnIR where
  type : String
  description : String
deriving DecidableEq

/-- One exception of the external IR. -/
structure ExceptionIR where
  type : String
  description : String
deriving DecidableEq

/-- The collections of a documented object that _fields walks; a missing
attribute (getattr default) is the empty list. -/
structure FieldObj where
  params : List ParamIR
  properties : List ParamIR
  exceptions : List ExceptionIR
  returns : List ReturnIR
deriving DecidableEq

/-- Embedding of _return_formatter; esc models the external
sphinx.util.rst.escape. -/
def return_formatter (esc : String → String) (r : ReturnIR) : Option (List String × String) :=
  some (["returns"],
    (if r.type ≠ "" then "**" ++ esc r.type ++ "** -- " else "") ++ r.description)

/-- Embedding of _param_formatter. -/
def param_formatter (p : ParamIR) : Option (List String × String) :=
  if p.type = "" && p.description = "" then none
  else some (["param"] ++ (if p.type ≠ "" then [p.type] else []) ++ [p.name], p.description)

/-- Embedding of _param_type_formatter. -/
def param_type_formatter (esc : String → String) (p : ParamIR) :
    Option (List String × String) :=
  if p.type = "" then none
  else some (["type", p.name],
    String.intercalate ", " ([esc p.type] ++ (if p.isOptional then [p.optional] else [])))

/-- Embedding of _exception_formatter. -/
def exception_formatter (e : ExceptionIR) : Option (List String × String) :=
  some (["throws"] ++ (if e.type ≠ "" then [e.type] else []), e.description)

/-- Embedding of JsRenderer._fields: walk FIELD_TYPES in order, keep the
truthy results, escape the heads and unwrap the tail. -/
def fields_of (esc : String → String) (obj : FieldObj) : List (List String × String) :=
  (((obj.params.map param_formatter)
      ++ (obj.params.map (param_type_formatter esc))
      ++ (obj.properties.map param_formatter)
      ++ (obj.properties.map (param_type_formatter esc))
      ++ (obj.exceptions.map exception_formatter)
      ++ (obj.returns.map (return_formatter esc))).filterMap id).map
    (fun ht => (ht.1.map esc, unwrapped ht.2))

/-- Outcome of the external analyzer call get_object inside rst_nodes:
either an object was found, or one of the two suffix-tree exceptions was
raised (with the data the handlers read from the exception). -/
inductive AnalyzerLookup where
  | found (objName : String)
  | suffixNotFound (segments : List String)
  | suffixAmbiguous (segments : List String) (nextPossibleKeys : List String)
deriving DecidableEq

/-- Result of rst_nodes: rendered nodes, or a raised SphinxError with its
message. -/
inductive RstNodesOutcome where
  | nodes (rendered : String)
  | sphinxError (message : String)
deriving DecidableEq

/-- A single quote character, written via its code point. -/
def pyQuote : String := String.singleton (Char.ofNat 39)

/-- Python str() of a list of strings, as interpolated by the percent-s
format of the SuffixAmbiguous handler (plain quoting, no escapes). -/
def pyReprStrList (keys : List String) : String :=
  "[" ++ String.intercalate ", " (keys.map (fun k => pyQuote ++ k ++ pyQuote)) ++ "]"

/-- Embedding of JsRenderer.rst_nodes in renderers.py, restricted to what
the error handling claims observe: the conversion of the two analyzer
exceptions into SphinxError values with the exact messages of the source,
and the rendering call on success (render models the rst/template path). -/
def rst_nodes (lookup : AnalyzerLookup) (render : String → String) : RstNodesOutcome :=
  match lookup with
  | AnalyzerLookup.found obj => RstNodesOutcome.nodes (render obj)
  | AnalyzerLookup.suffixNotFound segs =>
      RstNodesOutcome.sphinxError
        ("No documentation was found for object \"" ++ String.join segs
          ++ "\" or any path ending with that.")
  | AnalyzerLookup.suffixAmbiguous segs keys =>
      RstNodesOutcome.sphinxError
        ("More than one object matches the path suffix \"" ++ String.join segs
          ++ "\". Candidate paths have these segments in front: " ++ pyReprStrList keys)

/-- Embedding of posixpath.join for two components, as used with
os.path.join on the POSIX build host. -/
def pyJoin (a b : String) : String :=
  if pyStartsWith b "/" then b
  else if a = "" || pyEndsWith a "/" then a ++ b
  else a ++ "/" ++ b

/-- Embedding of posixpath.dirname. -/
def pyDirname (p : String) : String :=
  let cs := p.data
  let head := (cs.reverse.dropWhile (fun c => !decide (c = '/'))).reverse
  if head.all (fun c => decide (c = '/')) then String.mk head
  else String.mk ((head.reverse.dropWhile (fun c => decide (c = '/'))).reverse)

/-- Embedding of Python str.splitlines for newline and carriage return
plus newline line endings (the endings produced by the documentation
sources the generator reads). -/
def pySplitlines (s : String) : List String :=
  let parts := (pySplitChar '\n' s.data).map (fun l =>
    if l.getLast? = some '\r' then String.mk l.dropLast else String.mk l)
  if parts.getLast? = some "" then parts.dropLast else parts

/-- Matcher for the option regexes of find_automodules_in_lines, of shape
caret backslash-s plus, a literal option name, then the trimmed rest of
the line as the captured group (the lines handled here contain no
embedded newline, having been produced by splitlines). -/
def matchOptLine (opt : String) (line : String) : Option String :=
  let cs := line.data
  if (cs.takeWhile isPySpace).isEmpty then none
  else
    let rest := cs.dropWhile isPySpace
    if opt.data.isPrefixOf rest then some (String.mk (pyTrimChars (rest.drop opt.data.length)))
    else none

/-- First character class of an item name: underscore or ASCII letter. -/
def isNameStart (c : Char) : Bool := decide (c = '_') || c.isAlpha

/-- Tail character class of an item name: letter, digit, underscore, dot
or slash. -/
def isNameChar (c : Char) : Bool :=
  c.isAlphanum || decide (c = '_') || decide (c = '.') || decide (c = '/')

/-- Matcher for the item regex of find_automodules_in_lines: at least one
leading whitespace character, then the captured group of an optional
tilde, a name start character and the greedy run of name characters. -/
def itemMatch (line : String) : Option String :=
  let cs := line.data
  if (cs.takeWhile isPySpace).isEmpty then none
  else
    match cs.dropWhile isPySpace with
    | [] => none
    | c :: cs2 =>
      if c = '~' then
        match cs2 with
        | [] => none
        | d :: ds =>
          if isNameStart d then some (String.mk ('~' :: d :: ds.takeWhile isNameChar))
          else none
      else if isNameStart c then some (String.mk (c :: cs2.takeWhile isNameChar))
      else none

/-- Matcher for the directive regex of find_automodules_in_lines: the
captured leading whitespace, two dots, at least one whitespace character
and the literal directive name. Returns the captured indentation. -/
def directiveIndent (line : String) : Option String :=
  let cs := line.data
  match cs.dropWhile isPySpace with
  | '.' :: '.' :: rest2 =>
    if (rest2.takeWhile isPySpace).isEmpty then none
    else if ("js:automodules::").data.isPrefixOf (rest2.dropWhile isPySpace) then
      some (String.mk (cs.takeWhile isPySpace))
    else none
  | _ => none

/-- The loop state of find_automodules_in_lines. The Python initial
values None for toctree and False for private_members are dead (every
entry is created only after a directive line reset them), so both are
embedded with their reset types. -/
structure FindSt where
  toctree : String
  members : Option String
  excludeMembers : String
  privateMembers : Option String
  baseIndent : String
deriving DecidableEq

/-- One parsed entry, the AutomodulesEntry named tuple of generator.py. -/
structure AutomodulesEntry where
  name : String
  path : String
  members : Option String
  excludeMembers : String
  privateMembers : Option String
deriving DecidableEq

/-- The toctree transformation applied when the option is parsed: joined
onto the directory of the filename argument when a truthy filename was
given. -/
def joinToctree (fname : Option String) (v : String) : String :=
  match fname with
  | some f => if f = "" then v else pyJoin (pyDirname f) v
  | none => v

/-- Result of handling one line while inside an automodules block. -/
inductive StepRes where
  | cont (st : FindSt)
  | item (name : String)
  | exit
deriving DecidableEq

/-- One iteration of the body of find_automodules_in_lines while
in_automodules is true, in the exact order of the source: the four option
regexes, the option-skip test, the item regex, the blank-or-indented
continuation test, and otherwise leaving the block. -/
def inAutoStep (fname : Option String) (st : FindSt) (line : String) : StepRes :=
  match matchOptLine ":toctree:" line with
  | some v => StepRes.cont { st with toctree := joinToctree fname v }
  | none =>
    match matchOptLine ":members:" line with
    | some v => StepRes.cont { st with members := some v }
    | none =>
      match matchOptLine ":exclude-members:" line with
      | some v => StepRes.cont { st with excludeMembers := v }
      | none =>
        match matchOptLine ":private-members:" line with
        | some v => StepRes.cont { st with privateMembers := some v }
        | none =>
          if pyStartsWith (pyStrip line) ":" then StepRes.cont st
          else
            match itemMatch line with
            | some nm => StepRes.item nm
            | none =>
              if pyStrip line = "" || pyStartsWith line (st.baseIndent ++ " ") then StepRes.cont st
              else StepRes.exit

/-- The state reset performed on a directive line. -/
def resetSt (ind : String) : FindSt :=
  { toctree := "_automodules", members := none, excludeMembers := "",
    privateMembers := none, baseIndent := ind }

/-- The loop of find_automodules_in_lines: the flag in_automodules, the
option state, and the fall-through from leaving a block to testing the
same line against the directive regex. -/
def findAux (fname : Option String) : Bool → FindSt → List String → List AutomodulesEntry
  | _, _, [] => []
  | true, st, line :: rest =>
    (match inAutoStep fname st line with
     | StepRes.cont st2 => findAux fname true st2 rest
     | StepRes.item nm =>
         { name := nm, path := st.toctree, members := st.members,
           excludeMembers := st.excludeMembers, privateMembers := st.privateMembers }
           :: findAux fname true st rest
     | StepRes.exit =>
         match directiveIndent line with
         | some ind => findAux fname true (resetSt ind) rest
         | none => findAux fname false st rest)
  | false, st, line :: rest =>
    match directiveIndent line with
    | some ind => findAux fname true (resetSt ind) rest
    | none => findAux fname false st rest

/-- Embedding of find_automodules_in_lines in generator.py. The module
argument is accepted and ignored, exactly as in the source. -/
def find_automodules_in_lines (lines : List String) (moduleArg : Option String)
    (filename : Option String) : List AutomodulesEntry :=
  let _ := moduleArg
  findAux filename false
    { toctree := "", members := none, excludeMembers := "", privateMembers := none,
      baseIndent := "" }
    lines

/-- The option values carried while specifying a block: the four options
with their documented defaults. -/
structure BlockOpts where
  toctree : String
  members : Option String
  excludeMembers : String
  privateMembers : Option String
deriving DecidableEq

/-- The default option values at the start of every block. -/
def initOpts : BlockOpts :=
  { toctree := "_automodules", members := none, excludeMembers := "", privateMembers := none }

/-- The option part of the loop state. -/
def optsOf (st : FindSt) : BlockOpts :=
  { toctree := st.toctree, members := st.members, excludeMembers := st.excludeMembers,
    privateMembers := st.privateMembers }

/-- Specification-side accumulation of the option lines seen so far in a
block, in the priority order of the source regexes. -/
def optStep (fname : Option String) (o : BlockOpts) (line : String) : BlockOpts :=
  match matchOptLine ":toctree:" line with
  | some v => { o with toctree := joinToctree fname v }
  | none =>
    match matchOptLine ":members:" line with
    | some v => { o with members := some v }
    | none =>
      match matchOptLine ":exclude-members:" line with
      | some v => { o with excludeMembers := v }
      | none =>
        match matchOptLine ":private-members:" line with
        | some v => { o with privateMembers := some v }
        | none => o

/-- Specification-side reading of one block: every item line yields one
entry carrying the option values parsed earlier in the block, every other
line only updates the option values. -/
def blockEntriesFrom (fname : Option String) (o : BlockOpts) :
    List String → List AutomodulesEntry
  | [] => []
  | l :: ls =>
    match itemMatch l with
    | some nm =>
        { name := nm, path := o.toctree, members := o.members,
          excludeMembers := o.excludeMembers, privateMembers := o.privateMembers }
          :: blockEntriesFrom fname o ls
    | none => blockEntriesFrom fname (optStep fname o l) ls

/-- Whether a line stays inside a block with the given captured
indentation, mirroring the disjunction of continuation cases of the loop
body. -/
def isContinuation (ind : String) (line : String) : Bool :=
  (matchOptLine ":toctree:" line).isSome || (matchOptLine ":members:" line).isSome
    || (matchOptLine ":exclude-members:" line).isSome
    || (matchOptLine ":private-members:" line).isSome
    || pyStartsWith (pyStrip line) ":" || (itemMatch line).isSome
    || decide (pyStrip line = "") || pyStartsWith line (ind ++ " ")

/-- Specification-side reading of find_automodules_in_lines: a directive
line opens a block made of the following continuation lines, whose item
lines yield entries with the option values accumulated from the default
values at the block start; everything outside blocks is ignored. -/
def specFind (fname : Option String) : List String → List AutomodulesEntry
  | [] => []
  | l :: rest =>
    match directiveIndent l with
    | some ind =>
        blockEntriesFrom fname initOpts (rest.takeWhile (isContinuation ind))
          ++ specFind fname (rest.dropWhile (isContinuation ind))
    | none => specFind fname rest
termination_by l => l.length
decreasing_by
  · simp only [List.length_cons]
    exact Nat.lt_succ_of_le (List.dropWhile_sublist _).length_le
  · simp

/-- One element of app.generated_automodules_docs: the tuple
(filename, path, name, suffix). -/
structure GenEntry where
  filename : String
  path : String
  name : String
  suffix : String
deriving DecidableEq

/-- The mutable state threaded through generate_automodules_docs: the
stub files on disk and the generated entries list. -/
structure GenState where
  fs : List (String × String)
  docs : List GenEntry
deriving DecidableEq

/-- Reading a file: the content stored under the exact file name. -/
def fsLookup (fs : List (String × String)) (name : String) : Option String :=
  (fs.find? (fun p => decide (p.1 = name))).map (fun p => p.2)

/-- Writing a file: the newest binding shadows the older ones. -/
def fsWrite (fs : List (String × String)) (name content : String) : List (String × String) :=
  (name, content) :: fs

/-- Python substring containment, needle in hay. -/
def listInfixB (needle : List Char) : List Char → Bool
  | [] => needle.isEmpty
  | c :: cs => needle.isPrefixOf (c :: cs) || listInfixB needle cs

/-- The body of the inner module loop of generate_automodules_docs: skip
excluded modules (the Python substring test moduleName in the raw
exclude string), render the stub content, then write the stub file only
when it does not exist or its content changed while overwrite is set,
and append the generated entry in every non-skipped case. -/
def process_module (overwrite : Bool) (render : String → String) (excludeMembers : String)
    (dirPath suffix : String) (st : GenState) (moduleName : String) : GenState :=
  if listInfixB moduleName.data excludeMembers.data then st
  else
    let content := render moduleName
    let filename := pyJoin dirPath (moduleName ++ suffix)
    let newDocs := st.docs ++
      [{ filename := filename, path := dirPath, name := moduleName, suffix := suffix }]
    match fsLookup st.fs filename with
    | some oldContent =>
      if content = oldContent then { st with docs := newDocs }
      else if overwrite then { fs := fsWrite st.fs filename content, docs := newDocs }
      else { st with docs := newDocs }
    | none => { fs := fsWrite st.fs filename content, docs := newDocs }

/-- Python str() of an optional string, with None spelled literally. -/
def pyReprOptStr : Option String → String
  | none => "None"
  | some s => pyQuote ++ s ++ pyQuote

/-- Python str() of an AutomodulesEntry named tuple, the sort key of the
entry loop (plain quoting, no escapes). -/
def entryReprStr (e : AutomodulesEntry) : String :=
  "AutomodulesEntry(name=" ++ pyQuote ++ e.name ++ pyQuote
    ++ ", path=" ++ pyQuote ++ e.path ++ pyQuote
    ++ ", members=" ++ pyReprOptStr e.members
    ++ ", exclude_members=" ++ pyQuote ++ e.excludeMembers ++ pyQuote
    ++ ", private_members=" ++ pyReprOptStr e.privateMembers ++ ")"

/-- String comparison as a Bool, the order Python sorted uses on str. -/
def strLt (a b : String) : Bool := decide (a < b)

/-- Embedding of generate_automodules_docs in generator.py. External
collaborators are parameters: resolveName is the analyzer resolve_name
(giving the module names), render is the Jinja template rendering of one
module name for one entry, abspath is os.path.abspath. Files are read
from fs0; a missing source reads as empty (the caller only passes files
it found on disk). -/
def generate_automodules_docs (resolveName : String → List String)
    (render : String → AutomodulesEntry → String) (abspath : String → String)
    (suffix : String) (overwrite : Bool) (srcdir : Option String)
    (fs0 : List (String × String)) (sources : List String) : GenState :=
  let sources2 := match srcdir with
    | some b => sources.map (fun f => pyJoin b f)
    | none => sources
  let items := (sources2.map (fun f =>
      find_automodules_in_lines (pySplitlines ((fsLookup fs0 f).getD "")) none (some f))).flatten
  let entries := stableSort (fun a b => strLt (entryReprStr a) (entryReprStr b)) (dedupFirst items)
  entries.foldl (fun st e =>
      (resolveName e.name).foldl
        (fun st2 m =>
          process_module overwrite (fun nm => render nm e) e.excludeMembers (abspath e.path)
            suffix st2 m)
        st)
    { fs := fs0, docs := [] }

/-- Embedding of get_rst_suffix in generator.py: the first configured
source suffix whose registered parser (defaulting to the builtin
restructuredtext parser when none is registered) supports the
restructuredtext format. -/
def get_rst_suffix (sourceSuffixes : List String) (parsers : List (String × List String)) :
    Option String :=
  sourceSuffixes.find? (fun s =>
    decide ("restructuredtext" ∈
      (((parsers.find? (fun p => decide (p.1 = s))).map (fun p => p.2)).getD
        ["restructuredtext"])))

/-- The application state process_automodules reads: the source files
found by the environment, the source suffix configuration with the
registered parser formats, and the collaborators of the generation
phase. -/
structure AppModel where
  sources : List String
  sourceSuffixes : List String
  parsers : List (String × List String)
  srcdir : String
  fs : List (String × String)
  resolveName : String → List String
  render : String → AutomodulesEntry → String
  abspath : String → String

/-- The observable outcome of process_automodules: the warnings logged,
the resulting files, and the generated entries list when generation ran
(none when the function returned before generating). -/
structure ProcessOut where
  warnings : List String
  fs : List (String × String)
  docs : Option (List GenEntry)
deriving DecidableEq

/-- Embedding of process_automodules in generator.py: return silently
when no source file exists, log a warning and skip when no source suffix
supports restructuredtext, and otherwise generate the stub files with
overwrite set. -/
def process_automodules (app : AppModel) : ProcessOut :=
  if app.sources.isEmpty then { warnings := [], fs := app.fs, docs := none }
  else
    match get_rst_suffix app.sourceSuffixes app.parsers with
    | none =>
        { warnings := ["automodules generats .rst files internally. But your source_suffix does not contain .rst. Skipped."],
          fs := app.fs, docs := none }
    | some suffix =>
        let g := generate_automodules_docs app.resolveName app.render app.abspath suffix true
          (some app.srcdir) app.fs app.sources
        { warnings := [], fs := g.fs, docs := some g.docs }

/-! Generic lemmas about the stable insertion sort, catMap, firstIndex
and dedupFirst. -/

theorem mem_insertStable (lt : α → α → Bool) (x a : α) (l : List α) :
    a ∈ insertStable lt x l ↔ a = x ∨ a ∈ l := by
  induction l with
  | nil => simp [insertStable]
  | cons y ys ih =>
    cases h : lt y x with
    | true =>
      simp only [insertStable, h, if_true, List.mem_cons, ih]
      tauto
    | false =>
      simp only [insertStable, h, Bool.false_eq_true, if_false, List.mem_cons]

theorem insertStable_perm (lt : α → α → Bool) (x : α) (l : List α) :
    List.Perm (insertStable lt x l) (x :: l) := by
  induction l with
  | nil => simp [insertStable]
  | cons y ys ih =>
    cases h : lt y x with
    | true =>
      simp only [insertStable, h, if_true]
      exact List.Perm.trans (List.Perm.cons y ih) (List.Perm.swap x y ys)
    | false =>
      simp [insertStable, h]

theorem stableSort_perm (lt : α → α → Bool) (l : List α) :
    List.Perm (stableSort lt l) l := by
  induction l with
  | nil => simp [stableSort]
  | cons x xs ih =>
    exact List.Perm.trans (insertStable_perm lt x (stableSort lt xs)) (List.Perm.cons x ih)

theorem pairwise_insertStable (lt : α → α → Bool)
    (hasym : ∀ a b, lt a b = true → lt b a = false)
    (htrans : ∀ a b c, lt b a = false → lt c b = false → lt c a = false)
    (x : α) (l : List α) (h : l.Pairwise (fun a b => lt b a = false)) :
    (insertStable lt x l).Pairwise (fun a b => lt b a = false) := by
  induction l with
  | nil => simp [insertStable]
  | cons y ys ih =>
    rw [List.pairwise_cons] at h
    obtain ⟨hy, hys⟩ := h
    cases hc : lt y x with
    | true =>
      simp only [insertStable, hc, if_true]
      rw [List.pairwise_cons]
      constructor
      · intro b hb
        rcases (mem_insertStable lt x b ys).mp hb with rfl | hbm
        · exact hasym y b hc
        · exact hy b hbm
      · exact ih hys
    | false =>
      simp only [insertStable, hc, Bool.false_eq_true, if_false]
      rw [List.pairwise_cons]
      constructor
      · intro b hb
        rcases List.mem_cons.mp hb with rfl | hbm
        · exact hc
        · exact htrans x y b hc (hy b hbm)
      · rw [List.pairwise_cons]
        exact ⟨hy, hys⟩

theorem stableSort_pairwise (lt : α → α → Bool)
    (hasym : ∀ a b, lt a b = true → lt b a = false)
    (htrans : ∀ a b c, lt b a = false → lt c b = false → lt c a = false)
    (l : List α) :
    (stableSort lt l).Pairwise (fun a b => lt b a = false) := by
  induction l with
  | nil => simp [stableSort]
  | cons x xs ih => exact pairwise_insertStable lt hasym htrans x _ ih

theorem insertStable_append (lt : α → α → Bool) (x : α) (l₁ l₂ : List α)
    (h : ∀ y ∈ l₁, lt y x = true) :
    insertStable lt x (l₁ ++ l₂) = l₁ ++ insertStable lt x l₂ := by
  induction l₁ with
  | nil => simp
  | cons y ys ih =>
    have hy : lt y x = true := h y (List.mem_cons_self y ys)
    simp only [List.cons_append, insertStable, hy, if_true, List.append_eq]
    rw [ih (fun z hz => h z (List.mem_cons_of_mem y hz))]

theorem insertStable_cons_of (lt : α → α → Bool) (x : α) (l : List α)
    (h : ∀ y ∈ l, lt y x = false) :
    insertStable lt x l = x :: l := by
  cases l with
  | nil => rfl
  | cons y ys =>
    have hy : lt y x = false := h y (List.mem_cons_self y ys)
    simp [insertStable, hy]

theorem catMap_append (f : α → List β) (l₁ l₂ : List α) :
    catMap f (l₁ ++ l₂) = catMap f l₁ ++ catMap f l₂ := by
  induction l₁ with
  | nil => simp [catMap]
  | cons x xs ih => simp [catMap, ih]

theorem catMap_congr (f g : α → List β) (l : List α) (h : ∀ x ∈ l, f x = g x) :
    catMap f l = catMap g l := by
  induction l with
  | nil => rfl
  | cons x xs ih =>
    simp only [catMap]
    rw [h x (List.mem_cons_self x xs), ih (fun z hz => h z (List.mem_cons_of_mem x hz))]

theorem mem_catMap (f : α → List β) (l : List α) (b : β) :
    b ∈ catMap f l ↔ ∃ x ∈ l, b ∈ f x := by
  induction l with
  | nil => simp [catMap]
  | cons x xs ih =>
    simp only [catMap, List.mem_append, ih, List.mem_cons]
    constructor
    · rintro (hb | ⟨y, hy, hby⟩)
      · exact ⟨x, Or.inl rfl, hb⟩
      · exact ⟨y, Or.inr hy, hby⟩
    · rintro ⟨y, hy | hy, hby⟩
      · subst hy
        exact Or.inl hby
      · exact Or.inr ⟨y, hy, hby⟩

theorem catMap_eq_nil (f : α → List β) (l : List α) (h : ∀ x ∈ l, f x = []) :
    catMap f l = [] := by
  induction l with
  | nil => rfl
  | cons x xs ih =>
    simp only [catMap]
    rw [h x (List.mem_cons_self x xs), ih (fun z hz => h z (List.mem_cons_of_mem x hz))]
    rfl

theorem catMap_filter (p : β → Bool) (f : α → List β) (l : List α) :
    (catMap f l).filter p = catMap (fun x => (f x).filter p) l := by
  induction l with
  | nil => rfl
  | cons x xs ih => simp [catMap, List.filter_append, ih]

theorem catMap_eq_single (f : α → List β) (l : List α) (n : α)
    (hmem : n ∈ l) (hnd : l.Nodup) (hother : ∀ k ∈ l, k ≠ n → f k = []) :
    catMap f l = f n := by
  induction l with
  | nil => simp at hmem
  | cons x xs ih =>
    rw [List.nodup_cons] at hnd
    rcases List.mem_cons.mp hmem with rfl | hx
    · simp only [catMap]
      rw [catMap_eq_nil f xs (fun k hk => hother k (List.mem_cons_of_mem _ hk)
        (fun he => hnd.1 (he ▸ hk)))]
      simp
    · simp only [catMap]
      rw [hother x (List.mem_cons_self _ _) (fun he => hnd.1 (he ▸ hx))]
      rw [ih hx hnd.2 (fun k hk hkn => hother k (List.mem_cons_of_mem _ hk) hkn)]
      rfl

theorem catMap_map (f : α → β) (g : β → List γ) (l : List α) :
    catMap g (l.map f) = catMap (fun x => g (f x)) l := by
  induction l with
  | nil => rfl
  | cons x xs ih => simp [catMap, ih]

theorem firstIndex_split [DecidableEq α] (x : α) (l : List α) (h : x ∈ l) :
    l = l.take (firstIndex x l) ++ x :: l.drop (firstIndex x l + 1) := by
  induction l with
  | nil => simp at h
  | cons y ys ih =>
    by_cases hy : y = x
    · subst hy
      simp [firstIndex]
    · rcases List.mem_cons.mp h with rfl | hx
      · exact absurd rfl hy
      · simp only [firstIndex, hy, if_false]
        simp only [List.take_succ_cons, List.drop_succ_cons, List.cons_append]
        exact congrArg (List.cons y) (ih hx)

theorem firstIndex_inj [DecidableEq α] (x y : α) (l : List α)
    (hx : x ∈ l) (hy : y ∈ l) (h : firstIndex x l = firstIndex y l) : x = y := by
  induction l with
  | nil => simp at hx
  | cons z zs ih =>
    by_cases hzx : z = x
    · by_cases hzy : z = y
      · rw [← hzx, hzy]
      · subst hzx
        simp [firstIndex, hzy] at h
    · by_cases hzy : z = y
      · subst hzy
        simp [firstIndex, hzx] at h
      · simp only [firstIndex, hzx, hzy, if_false] at h
        have hx2 : x ∈ zs := by
          rcases List.mem_cons.mp hx with rfl | h2
          · exact absurd rfl hzx
          · exact h2
        have hy2 : y ∈ zs := by
          rcases List.mem_cons.mp hy with rfl | h2
          · exact absurd rfl hzy
          · exact h2
        exact ih hx2 hy2 (by omega)

theorem mem_dedupFirst [DecidableEq α] (a : α) (l : List α) :
    a ∈ dedupFirst l ↔ a ∈ l := by
  induction l with
  | nil => simp [dedupFirst]
  | cons x xs ih =>
    simp only [dedupFirst, List.mem_cons]
    by_cases hax : a = x
    · simp [hax]
    · simp [List.mem_filter, hax, ih]

theorem dedupFirst_pairwise [DecidableEq α] (l : List α) :
    (dedupFirst l).Pairwise (fun a b => firstIndex a l < firstIndex b l) := by
  induction l with
  | nil => simp [dedupFirst]
  | cons x xs ih =>
    simp only [dedupFirst]
    rw [List.pairwise_cons]
    constructor
    · intro b hb
      rw [List.mem_filter] at hb
      have hbx : b ≠ x := by simpa using hb.2
      have hxb : ¬(x = b) := fun h2 => hbx h2.symm
      simp [firstIndex, hxb]
    · have h2 := List.Pairwise.filter (fun y => decide (y ≠ x)) ih
      refine List.Pairwise.imp_of_mem ?_ h2
      intro a b ha hb hab
      rw [List.mem_filter] at ha hb
      have hxa : ¬(x = a) := by
        have := ha.2
        simp at this
        exact fun h2 => this h2.symm
      have hxb : ¬(x = b) := by
        have := hb.2
        simp at this
        exact fun h2 => this h2.symm
      simp [firstIndex, hxa, hxb]
      omega

theorem dedupFirst_nodup [DecidableEq α] (l : List α) : (dedupFirst l).Nodup := by
  have h := dedupFirst_pairwise l
  exact h.imp (fun hlt heq => absurd (heq ▸ hlt) (lt_irrefl _))

theorem stableSort_key_eq_catMap (key : α → Nat) (ks : List Nat)
    (hks : ks.Pairwise (· < ·)) :
    ∀ ms : List α, (∀ m ∈ ms, key m ∈ ks) →
      stableSort (fun a b => decide (key a < key b)) ms
        = catMap (fun k => ms.filter (fun m => decide (key m = k))) ks := by
  intro ms
  induction ms with
  | nil =>
    intro _
    rw [catMap_eq_nil]
    · rfl
    · intro k _
      simp
  | cons m ms ih =>
    intro hcov
    have hcov2 : ∀ x ∈ ms, key x ∈ ks := fun x hx => hcov x (List.mem_cons_of_mem m hx)
    have hm : key m ∈ ks := hcov m (List.mem_cons_self _ _)
    obtain ⟨ks1, ks2, hsplit⟩ := List.append_of_mem hm
    subst hsplit
    have hks2 := List.pairwise_append.mp hks
    have hlt1 : ∀ k ∈ ks1, k < key m :=
      fun k hk => hks2.2.2 k hk (key m) (List.mem_cons_self _ _)
    have hlt2 : ∀ k ∈ ks2, key m < k :=
      fun k hk => (List.pairwise_cons.mp hks2.2.1).1 k hk
    have hA : ∀ y ∈ catMap (fun k => ms.filter (fun x => decide (key x = k))) ks1,
        (fun a b => decide (key a < key b)) y m = true := by
      intro y hy
      rw [mem_catMap] at hy
      obtain ⟨k, hk, hyk⟩ := hy
      rw [List.mem_filter] at hyk
      have hky : key y = k := by simpa using hyk.2
      simp only [decide_eq_true_eq]
      rw [hky]
      exact hlt1 k hk
    have hB : ∀ y ∈ ms.filter (fun x => decide (key x = key m))
        ++ catMap (fun k => ms.filter (fun x => decide (key x = k))) ks2,
        (fun a b => decide (key a < key b)) y m = false := by
      intro y hy
      rw [List.mem_append] at hy
      rcases hy with hy | hy
      · rw [List.mem_filter] at hy
        have hky : key y = key m := by simpa using hy.2
        simp [hky]
      · rw [mem_catMap] at hy
        obtain ⟨k, hk, hyk⟩ := hy
        rw [List.mem_filter] at hyk
        have hky : key y = k := by simpa using hyk.2
        simp only [decide_eq_false_iff_not]
        rw [hky]
        exact not_lt_of_gt (hlt2 k hk)
    have lhs : stableSort (fun a b => decide (key a < key b)) (m :: ms)
        = catMap (fun k => ms.filter (fun x => decide (key x = k))) ks1
          ++ m :: (ms.filter (fun x => decide (key x = key m))
            ++ catMap (fun k => ms.filter (fun x => decide (key x = k))) ks2) := by
      simp only [stableSort]
      rw [ih hcov2, catMap_append]
      simp only [catMap]
      rw [insertStable_append _ _ _ _ hA, insertStable_cons_of _ _ _ hB]
    have rhs : catMap (fun k => (m :: ms).filter (fun x => decide (key x = k)))
          (ks1 ++ key m :: ks2)
        = catMap (fun k => ms.filter (fun x => decide (key x = k))) ks1
          ++ ((m :: ms.filter (fun x => decide (key x = key m)))
            ++ catMap (fun k => ms.filter (fun x => decide (key x = k))) ks2) := by
      rw [catMap_append]
      simp only [catMap]
      have e1 : catMap (fun k => (m :: ms).filter (fun x => decide (key x = k))) ks1
          = catMap (fun k => ms.filter (fun x => decide (key x = k))) ks1 := by
        apply catMap_congr
        intro k hk
        rw [List.filter_cons]
        have hne : ¬(key m = k) := by
          have := hlt1 k hk
          omega
        simp [hne]
      have e2 : (m :: ms).filter (fun x => decide (key x = key m))
          = m :: ms.filter (fun x => decide (key x = key m)) := by
        rw [List.filter_cons]
        simp
      have e3 : catMap (fun k => (m :: ms).filter (fun x => decide (key x = k))) ks2
          = catMap (fun k => ms.filter (fun x => decide (key x = k))) ks2 := by
        apply catMap_congr
        intro k hk
        rw [List.filter_cons]
        have hne : ¬(key m = k) := by
          have := hlt2 k hk
          omega
        simp [hne]
      rw [e1, e2, e3]
    rw [lhs, rhs]
    simp

/-! Order properties of the member sort key. -/

theorem pathLt_asymm : ∀ a b : List String, pathLt a b = true → pathLt b a = false := by
  intro a
  induction a with
  | nil =>
    intro b h
    cases b with
    | nil => simp [pathLt] at h
    | cons y ys => simp [pathLt]
  | cons x xs ih =>
    intro b h
    cases b with
    | nil => simp [pathLt] at h
    | cons y ys =>
      simp only [pathLt] at h ⊢
      rcases lt_trichotomy x y with hlt | heq | hgt
      · rw [if_neg (lt_asymm hlt), if_pos hlt]
      · subst heq
        rw [if_neg (lt_irrefl x)] at h ⊢
        rw [if_neg (lt_irrefl x)] at h ⊢
        exact ih ys h
      · rw [if_neg (lt_asymm hgt), if_pos hgt] at h
        exact absurd h (by simp)

theorem pathLt_le_trans : ∀ a b c : List String,
    pathLt b a = false → pathLt c b = false → pathLt c a = false := by
  intro a
  induction a with
  | nil =>
    intro b c h1 h2
    cases c with
    | nil => simp [pathLt]
    | cons z zs => simp [pathLt]
  | cons x xs ih =>
    intro b c h1 h2
    cases b with
    | nil => simp [pathLt] at h1
    | cons y ys =>
      cases c with
      | nil => simp [pathLt] at h2
      | cons z zs =>
        simp only [pathLt] at h1 h2 ⊢
        rcases lt_trichotomy y x with hyx | hyx | hyx
        · rw [if_pos hyx] at h1
          exact absurd h1 (by simp)
        · subst hyx
          rw [if_neg (lt_irrefl y)] at h1
          rw [if_neg (lt_irrefl y)] at h1
          rcases lt_trichotomy z y with hzy | hzy | hzy
          · rw [if_pos hzy] at h2
            exact absurd h2 (by simp)
          · subst hzy
            rw [if_neg (lt_irrefl z)] at h2 ⊢
            rw [if_neg (lt_irrefl z)] at h2 ⊢
            exact ih ys zs h1 h2
          · rw [if_neg (lt_asymm hzy), if_pos hzy]
        · have hzy : ¬(z < y) := by
            intro hz
            rw [if_pos hz] at h2
            exact absurd h2 (by simp)
          have hxz : x < z := lt_of_lt_of_le hyx (le_of_not_lt hzy)
          rw [if_neg (lt_asymm hxz), if_pos hxz]

theorem memberLt_asymm : ∀ a b : Member, memberLt a b = true → memberLt b a = false := by
  intro a b h
  unfold memberLt at h ⊢
  by_cases hf : a.isFunction = b.isFunction
  · rw [if_pos hf] at h
    rw [if_pos hf.symm]
    exact pathLt_asymm _ _ h
  · rw [if_neg hf] at h
    rw [if_neg (fun h2 => hf h2.symm)]
    cases ha : a.isFunction <;> cases hb : b.isFunction <;> simp_all

theorem memberLt_le_trans : ∀ a b c : Member,
    memberLt b a = false → memberLt c b = false → memberLt c a = false := by
  intro a b c h1 h2
  by_cases hba : b.isFunction = a.isFunction <;>
    by_cases hcb : c.isFunction = b.isFunction
  · unfold memberLt at h1 h2 ⊢
    rw [if_pos hba] at h1
    rw [if_pos hcb] at h2
    rw [if_pos (hcb.trans hba)]
    exact pathLt_le_trans _ _ _ h1 h2
  · unfold memberLt at h1 h2 ⊢
    rw [if_neg hcb] at h2
    rw [if_neg (fun h3 => hcb (h3.trans hba.symm))]
    cases hc : c.isFunction <;> cases hb : b.isFunction <;>
      cases ha : a.isFunction <;> simp_all
  · unfold memberLt at h1 h2 ⊢
    rw [if_neg hba] at h1
    rw [if_neg (fun h3 => hba (hcb.symm.trans h3))]
    cases hc : c.isFunction <;> cases hb : b.isFunction <;>
      cases ha : a.isFunction <;> simp_all
  · unfold memberLt at h1 h2 ⊢
    rw [if_neg hba] at h1
    rw [if_neg hcb] at h2
    cases hc : c.isFunction <;> cases hb : b.isFunction <;>
      cases ha : a.isFunction <;> simp_all

theorem members_sort_by_index (ms : List Member) (names : List String)
    (hcov : ∀ m ∈ ms, m.name ∈ names) :
    stableSort (fun a b => decide (firstIndex a.name names < firstIndex b.name names)) ms
      = selectByNames ms names := by
  have hks : ((dedupFirst names).map (fun n => firstIndex n names)).Pairwise (· < ·) := by
    rw [List.pairwise_map]
    exact dedupFirst_pairwise names
  have h1 := stableSort_key_eq_catMap (fun m => firstIndex m.name names) _ hks ms
    (fun m hm => by
      rw [List.mem_map]
      exact ⟨m.name, (mem_dedupFirst _ _).mpr (hcov m hm), rfl⟩)
  rw [h1, catMap_map]
  unfold selectByNames
  apply catMap_congr
  intro n hn
  apply List.filter_congr
  intro m hm
  have hmn : m.name ∈ names := hcov m hm
  have hnn : n ∈ names := (mem_dedupFirst _ _).mp hn
  by_cases he : m.name = n
  · simp [he]
  · have hne : firstIndex m.name names ≠ firstIndex n names :=
      fun h2 => he (firstIndex_inj _ _ _ hmn hnn h2)
    simp [he, hne]

/-! Claim theorems about _members_to_include. -/

/-- C10: for a None or empty members option, _members_to_include returns a
permutation of obj.members (nothing dropped or duplicated) sorted with
non-Function members before Function members and, within each kind, by
path segments. -/
theorem members_to_include_all (members : List Member) (includeArg : Option (List String))
    (h : includeArg = none ∨ includeArg = some []) :
    ∃ out, members_to_include members includeArg = some out
      ∧ List.Perm out members
      ∧ out.Pairwise (fun a b =>
          (a.isFunction = true → b.isFunction = true)
          ∧ (a.isFunction = b.isFunction → pathLt b.path a.path = false)) := by
  refine ⟨sortMembers members, ?_, stableSort_perm _ _, ?_⟩
  · rcases h with rfl | rfl <;> rfl
  · have hp := stableSort_pairwise memberLt memberLt_asymm memberLt_le_trans members
    refine hp.imp ?_
    intro a b hab
    unfold memberLt at hab
    by_cases hf : b.isFunction = a.isFunction
    · rw [if_pos hf] at hab
      exact ⟨fun ha => hf.trans ha, fun _ => hab⟩
    · rw [if_neg hf] at hab
      constructor
      · intro ha
        cases hb : b.isFunction
        · rw [ha, hb] at hab
          simp at hab
        · rfl
      · intro he
        exact absurd he.symm hf

/-- Witness for members_to_include_all at a concrete object. -/
theorem members_to_include_all_witness :
    ∃ out, members_to_include [⟨"f", true, ["a"]⟩, ⟨"b", false, ["z"]⟩] none = some out
      ∧ List.Perm out [⟨"f", true, ["a"]⟩, ⟨"b", false, ["z"]⟩]
      ∧ out.Pairwise (fun a b =>
          (a.isFunction = true → b.isFunction = true)
          ∧ (a.isFunction = b.isFunction → pathLt b.path a.path = false)) :=
  members_to_include_all [⟨"f", true, ["a"]⟩, ⟨"b", false, ["z"]⟩] none (Or.inl rfl)

/-- C2: for a non-empty members list without the placeholder, the result
holds exactly the members whose name occurs in the list, ordered by the
first position of their name in the list, members of equal name keeping
their relative order from obj.members. -/
theorem members_to_include_explicit (members : List Member) (inc : List String)
    (hne : inc ≠ []) (hstar : "*" ∉ inc) :
    ∃ out, members_to_include members (some inc) = some out
      ∧ List.Perm out (members.filter (fun m => decide (m.name ∈ inc)))
      ∧ out.Pairwise (fun a b => firstIndex a.name inc ≤ firstIndex b.name inc)
      ∧ ∀ n ∈ inc, out.filter (fun m => decide (m.name = n))
          = members.filter (fun m => decide (m.name = n)) := by
  have hempty : inc.isEmpty = false := by
    cases inc with
    | nil => exact absurd rfl hne
    | cons a l => rfl
  have hstarF : decide ("*" ∈ inc) = false := by simp [hstar]
  have hcov : ∀ m ∈ members.filter (fun m => decide (m.name ∈ inc)), m.name ∈ inc := by
    intro m hm
    rw [List.mem_filter] at hm
    simpa using hm.2
  have hall : (members.filter (fun m => decide (m.name ∈ inc))).all
      (fun m => decide (m.name ∈ inc)) = true := by
    rw [List.all_eq_true]
    intro m hm
    simpa using hcov m hm
  have heq : members_to_include members (some inc)
      = some (stableSort (fun a b => decide (firstIndex a.name inc < firstIndex b.name inc))
          (members.filter (fun m => decide (m.name ∈ inc)))) := by
    unfold members_to_include
    simp only [Option.getD_some, hempty, Bool.false_eq_true, if_false, hstarF,
      Bool.false_and, Bool.or_false]
    rw [if_pos hall]
  refine ⟨_, heq, stableSort_perm _ _, ?_, ?_⟩
  · have hp := stableSort_pairwise
      (fun a b => decide (firstIndex a.name inc < firstIndex b.name inc))
      (fun a b h2 => by
        simp only [decide_eq_true_eq] at h2
        simp only [decide_eq_false_iff_not]
        omega)
      (fun a b c h1 h2 => by
        simp only [decide_eq_false_iff_not] at h1 h2 ⊢
        omega)
      (members.filter (fun m => decide (m.name ∈ inc)))
    refine hp.imp ?_
    intro a b hab
    simp only [decide_eq_false_iff_not] at hab
    omega
  · intro n hn
    rw [members_sort_by_index _ inc hcov]
    unfold selectByNames
    rw [catMap_filter]
    have hsingle := catMap_eq_single
      (fun k => ((members.filter (fun m => decide (m.name ∈ inc))).filter
        (fun m => decide (m.name = k))).filter (fun m => decide (m.name = n)))
      (dedupFirst inc) n ((mem_dedupFirst _ _).mpr hn) (dedupFirst_nodup inc) ?_
    · rw [hsingle]
      simp only [List.filter_filter]
      apply List.filter_congr
      intro m hm
      by_cases he : m.name = n
      · simp [he, hn]
      · simp [he]
    · intro k hk hkn
      rw [List.filter_eq_nil_iff]
      intro m hm
      rw [List.mem_filter] at hm
      have hmk : m.name = k := by simpa using hm.2
      simp [hmk, hkn]

/-- Witness for members_to_include_explicit at a concrete object. -/
theorem members_to_include_explicit_witness :
    ∃ out, members_to_include [⟨"b", false, []⟩, ⟨"a", true, []⟩] (some ["a", "b"]) = some out
      ∧ List.Perm out ([⟨"b", false, []⟩, ⟨"a", true, []⟩].filter
          (fun m => decide (m.name ∈ (["a", "b"] : List String))))
      ∧ out.Pairwise (fun a b =>
          firstIndex a.name ["a", "b"] ≤ firstIndex b.name ["a", "b"])
      ∧ ∀ n ∈ (["a", "b"] : List String),
          out.filter (fun m => decide (m.name = n))
            = [⟨"b", false, []⟩, ⟨"a", true, []⟩].filter (fun m => decide (m.name = n)) :=
  members_to_include_explicit [⟨"b", false, []⟩, ⟨"a", true, []⟩] ["a", "b"]
    (by decide) (by decide)

/-- Counterexample to C1 as stated: two members not named in the list
share the short name x; the wildcard inserts them in their stable
obj.members order, with the Function first, although kind-then-path
sorting would put the non-Function member first. -/
theorem members_to_include_star_counterexample :
    members_to_include [⟨"x", true, ["a"]⟩, ⟨"x", false, ["b"]⟩] (some ["*"])
        = some [⟨"x", true, ["a"]⟩, ⟨"x", false, ["b"]⟩]
      ∧ (Member.mk "x" true ["a"]).isFunction = true
      ∧ (Member.mk "x" false ["b"]).isFunction = false
      ∧ ("x" : String) ∉ (["*"] : List String) := by
  refine ⟨by decide, rfl, rfl, by decide⟩

/-- C1 amended: for an include list containing the placeholder, provided
no member is literally named like the placeholder, _members_to_include
returns the members grouped by name, ordered by the first occurrence of
their name in the list obtained by replacing the placeholder with the
kind-then-path sorted names of the members not named in the list;
members of equal name keep their obj.members order. When those inserted
members have pairwise distinct names this is exactly the original claim. -/
theorem members_to_include_star (members : List Member) (inc : List String)
    (hstar : "*" ∈ inc) (hname : ∀ m ∈ members, m.name ≠ "*") :
    members_to_include members (some inc)
      = some (selectByNames members
          (inc.take (firstIndex "*" inc)
            ++ (sortMembers (members.filter (fun m => !decide (m.name ∈ inc)))).map
                (fun m => m.name)
            ++ inc.drop (firstIndex "*" inc + 1))) := by
  have hempty : inc.isEmpty = false := by
    cases inc with
    | nil => simp at hstar
    | cons a l => rfl
  have hstarT : decide ("*" ∈ inc) = true := by simp [hstar]
  set notNames := (sortMembers (members.filter (fun m => !decide (m.name ∈ inc)))).map
    (fun m => m.name) with hnotNames
  set inc2 := inc.take (firstIndex "*" inc) ++ notNames ++ inc.drop (firstIndex "*" inc + 1)
    with hinc2
  have hsplit := firstIndex_split "*" inc hstar
  have hnotMem : ∀ m ∈ members, m.name ∉ inc → m.name ∈ notNames := by
    intro m hm hmi
    rw [hnotNames, List.mem_map]
    refine ⟨m, ?_, rfl⟩
    have hmf : m ∈ members.filter (fun x => !decide (x.name ∈ inc)) := by
      rw [List.mem_filter]
      exact ⟨hm, by simp [hmi]⟩
    exact ((stableSort_perm memberLt _).mem_iff).mpr hmf
  have hcov : ∀ m ∈ members, m.name ∈ inc2 := by
    intro m hm
    by_cases hmi : m.name ∈ inc
    · rw [hinc2]
      have hmem2 : m.name ∈ inc.take (firstIndex "*" inc)
          ++ "*" :: inc.drop (firstIndex "*" inc + 1) := by
        rw [← hsplit]
        exact hmi
      rw [List.mem_append] at hmem2
      rw [List.mem_append, List.mem_append]
      rcases hmem2 with h1 | h1
      · exact Or.inl (Or.inl h1)
      · rcases List.mem_cons.mp h1 with h2 | h2
        · exact absurd h2 (hname m hm)
        · exact Or.inr h2
    · rw [hinc2, List.mem_append, List.mem_append]
      exact Or.inl (Or.inr (hnotMem m hm hmi))
  have hIM : members.filter (fun m => decide (m.name ∈ inc) || decide (m.name ∈ notNames))
      = members := by
    rw [List.filter_eq_self]
    intro m hm
    by_cases hmi : m.name ∈ inc
    · simp [hmi]
    · simp [hmi, hnotMem m hm hmi]
  have hall : members.all (fun m => decide (m.name ∈ inc2)) = true := by
    rw [List.all_eq_true]
    intro m hm
    simpa using hcov m hm
  have heq : members_to_include members (some inc)
      = some (stableSort (fun a b => decide (firstIndex a.name inc2 < firstIndex b.name inc2))
          members) := by
    unfold members_to_include
    simp only [Option.getD_some, hempty, Bool.false_eq_true, if_false, hstarT,
      if_true, Bool.true_and]
    simp only [← hnotNames, ← hinc2]
    rw [hIM]
    rw [if_pos hall]
  rw [heq, members_sort_by_index members inc2 hcov]

/-- Witness for members_to_include_star at a concrete object. -/
theorem members_to_include_star_witness :
    members_to_include [⟨"a", false, ["p"]⟩] (some ["*"])
      = some (selectByNames [⟨"a", false, ["p"]⟩]
          ((["*"] : List String).take (firstIndex "*" ["*"])
            ++ (sortMembers ([⟨"a", false, ["p"]⟩].filter
                (fun m => !decide (m.name ∈ (["*"] : List String))))).map (fun m => m.name)
            ++ (["*"] : List String).drop (firstIndex "*" ["*"] + 1))) :=
  members_to_include_star [⟨"a", false, ["p"]⟩] ["*"] (by decide) (by decide)

/-! Claim theorem about _members_to_exclude. -/

theorem pySplitChar_ne_nil (sep : Char) (cs : List Char) : pySplitChar sep cs ≠ [] := by
  induction cs with
  | nil => simp [pySplitChar]
  | cons c cs ih =>
    simp only [pySplitChar]
    by_cases hc : c = sep
    · simp [hc]
    · rcases hr : pySplitChar sep cs with _ | ⟨t, ts⟩
      · exact absurd hr ih
      · simp [hc, hr]

/-- C8: _members_to_exclude returns the comma separated, stripped tokens
of its argument as a set; for None or the empty string that set is the
singleton holding the empty string, so the result is never empty and an
empty exclude option excludes no member with a non-empty name. -/
theorem members_to_exclude_spec :
    (∀ arg, members_to_exclude arg ≠ [])
    ∧ members_to_exclude none = [""]
    ∧ members_to_exclude (some "") = [""]
    ∧ (∀ n : String, n ≠ "" → n ∉ members_to_exclude (some "")) := by
  refine ⟨?_, by rfl, by rfl, ?_⟩
  · intro arg
    unfold members_to_exclude
    intro h2
    rw [List.map_eq_nil_iff] at h2
    exact pySplitChar_ne_nil ',' _ h2
  · intro n hn hmem
    have h2 : members_to_exclude (some "") = [""] := by rfl
    rw [h2] at hmem
    simp at hmem
    exact hn hmem

/-- Witness for members_to_exclude_spec: a non-empty name is not excluded
by an empty exclude option. -/
theorem members_to_exclude_spec_witness : "a" ∉ members_to_exclude (some "") :=
  members_to_exclude_spec.2.2.2 "a" (by decide)

/-! Claim theorem about unwrapped and _fields. -/

theorem afterBreak_length_lt (c : Char) (cs : List Char)
    (h : breakStart (c :: cs) = true) :
    (afterBreak (c :: cs)).length < (c :: cs).length := by
  unfold afterBreak
  unfold breakStart at h
  rcases hd : List.dropWhile isBlankC (c :: cs) with _ | ⟨b, t⟩
  · rw [hd] at h
    simp at h
  · rw [hd] at h
    have hb : isBreakC b = true := h
    have h1 : List.dropWhile isBreakC (b :: t) = List.dropWhile isBreakC t := by
      rw [List.dropWhile_cons]
      simp [hb]
    rw [h1]
    have h2 : (List.dropWhile isBlankC (List.dropWhile isBreakC t)).length ≤ t.length :=
      le_trans (List.dropWhile_sublist _).length_le (List.dropWhile_sublist _).length_le
    have h3 : (b :: t).length ≤ (c :: cs).length := by
      rw [← hd]
      exact (List.dropWhile_sublist _).length_le
    simp only [List.length_cons] at h3 ⊢
    omega

theorem isBreakC_not_blank (c : Char) (h : isBreakC c = true) : isBlankC c = false := by
  have h2 : c = '\r' ∨ c = '\n' := by simpa [isBreakC] using h
  rcases h2 with rfl | rfl <;> rfl

theorem unwrappedAux_no_break : ∀ n (cs : List Char), cs.length ≤ n →
    ∀ c ∈ unwrappedAux cs, isBreakC c = false := by
  intro n
  induction n with
  | zero =>
    intro cs hlen c hc
    have hnil : cs = [] := List.length_eq_zero.mp (Nat.le_zero.mp hlen)
    subst hnil
    simp [unwrappedAux] at hc
  | succ n ih =>
    intro cs hlen c hc
    cases cs with
    | nil => simp [unwrappedAux] at hc
    | cons a as =>
      by_cases hb : breakStart (a :: as) = true
      · rw [unwrappedAux] at hc
        rw [dif_pos hb] at hc
        rcases List.mem_cons.mp hc with rfl | hc2
        · rfl
        · have hlt := afterBreak_length_lt a as hb
          simp only [List.length_cons] at hlt hlen
          exact ih (afterBreak (a :: as)) (by omega) c hc2
      · rw [unwrappedAux] at hc
        rw [dif_neg hb] at hc
        rcases List.mem_cons.mp hc with rfl | hc2
        · cases hcc : isBreakC c
          · rfl
          · exfalso
            apply hb
            unfold breakStart
            rw [List.dropWhile_cons, isBreakC_not_blank c hcc]
            simpa using hcc
        · simp only [List.length_cons] at hlen
          exact ih as (by omega) c hc2

/-- C9: unwrapped never leaves a carriage return or newline in its
result, and consequently the tail of every field yielded by _fields,
which is unwrapped before being yielded, is a single line. -/
theorem unwrapped_single_line :
    (∀ s : String, ∀ c ∈ (unwrapped s).data, ¬(c = '\r' ∨ c = '\n'))
    ∧ (∀ (esc : String → String) (obj : FieldObj) (heads : List String) (tail : String),
        (heads, tail) ∈ fields_of esc obj → ∀ c ∈ tail.data, ¬(c = '\r' ∨ c = '\n')) := by
  have hmain : ∀ t : String, ∀ c ∈ (unwrapped t).data, ¬(c = '\r' ∨ c = '\n') := by
    intro t c hc hor
    have h1 : isBreakC c = false :=
      unwrappedAux_no_break t.data.length t.data (le_refl _) c (by simpa [unwrapped] using hc)
    rcases hor with rfl | rfl <;> simp [isBreakC] at h1
  constructor
  · exact hmain
  · intro esc obj heads tail hmem
    unfold fields_of at hmem
    rw [List.mem_map] at hmem
    obtain ⟨ht, _, heq⟩ := hmem
    have htail : tail = unwrapped ht.2 := (congrArg Prod.snd heq).symm
    rw [htail]
    exact hmain ht.2

/-- Witness for unwrapped_single_line on a concrete wrapped string. -/
theorem unwrapped_single_line_witness :
    ¬(('a' : Char) = '\r' ∨ ('a' : Char) = '\n') :=
  unwrapped_single_line.1 "a\nb" 'a'
    (by
      have h2 : unwrapped "a\nb" = "a b" := by
        simp [unwrapped, unwrappedAux, breakStart, afterBreak, isBlankC, isBreakC]
      rw [h2]
      decide)

/-! Claim theorem about rst_nodes error conversion. -/

/-- C3: rst_nodes converts SuffixNotFound into a SphinxError whose
message names the joined path segments, converts SuffixAmbiguous into a
SphinxError naming the joined suffix and the candidate next segments,
and converts every non-success analyzer outcome into a SphinxError, so
neither analyzer exception escapes unconverted. -/
theorem rst_nodes_errors (render : String → String) (segs keys : List String) :
    rst_nodes (AnalyzerLookup.suffixNotFound segs) render
      = RstNodesOutcome.sphinxError
          ("No documentation was found for object \"" ++ String.join segs
            ++ "\" or any path ending with that.")
    ∧ rst_nodes (AnalyzerLookup.suffixAmbiguous segs keys) render
      = RstNodesOutcome.sphinxError
          ("More than one object matches the path suffix \"" ++ String.join segs
            ++ "\". Candidate paths have these segments in front: " ++ pyReprStrList keys)
    ∧ (∀ lookup : AnalyzerLookup, (∀ o, lookup ≠ AnalyzerLookup.found o) →
        ∃ msg, rst_nodes lookup render = RstNodesOutcome.sphinxError msg) := by
  refine ⟨rfl, rfl, ?_⟩
  intro lookup hnf
  cases lookup with
  | found o => exact absurd rfl (hnf o)
  | suffixNotFound s => exact ⟨_, rfl⟩
  | suffixAmbiguous s k => exact ⟨_, rfl⟩

/-- Witness for rst_nodes_errors on concrete exception data. -/
theorem rst_nodes_errors_witness :
    ∃ msg, rst_nodes (AnalyzerLookup.suffixNotFound ["a.", "b"]) (fun s => s)
      = RstNodesOutcome.sphinxError msg :=
  (rst_nodes_errors (fun s => s) ["a.", "b"] []).2.2
    (AnalyzerLookup.suffixNotFound ["a.", "b"]) (by intro o h2; cases h2)

/-! Bridge lemmas between the loop body of find_automodules_in_lines and
its block structured specification. -/

theorem dropWhile_head_false (p : α → Bool) (l : List α) (a : α) (as : List α)
    (h : l.dropWhile p = a :: as) : p a = false := by
  induction l with
  | nil => simp at h
  | cons b bs ih =>
    rw [List.dropWhile_cons] at h
    by_cases hb : p b = true
    · rw [if_pos hb] at h
      exact ih h
    · rw [if_neg hb] at h
      cases h
      simpa using hb

theorem dropWhile_append_last (p : α → Bool) (l : List α) (x : α) (h : p x = false) :
    List.dropWhile p (l ++ [x]) = List.dropWhile p l ++ [x] := by
  induction l with
  | nil => simp [List.dropWhile, h]
  | cons a as ih =>
    rw [List.cons_append, List.dropWhile_cons, List.dropWhile_cons]
    by_cases ha : p a = true
    · rw [if_pos ha, if_pos ha]
      exact ih
    · rw [if_neg ha, if_neg ha]
      rfl

theorem pyTrimChars_head (cs : List Char) (x : Char) (xs : List Char)
    (h : pyTrimChars cs = x :: xs) :
    ∃ ys, cs.dropWhile isPySpace = x :: ys := by
  unfold pyTrimChars at h
  rcases hd : cs.dropWhile isPySpace with _ | ⟨b, t⟩
  · rw [hd] at h
    simp at h
  · rw [hd] at h
    have hb : isPySpace b = false := dropWhile_head_false isPySpace cs b t hd
    have hrev : (b :: t).reverse = t.reverse ++ [b] := by simp
    rw [hrev, dropWhile_append_last isPySpace t.reverse b hb] at h
    rw [List.reverse_append] at h
    simp at h
    refine ⟨t, ?_⟩
    rw [← h.1]

theorem itemMatch_colon (line : String) (cs : List Char)
    (h : line.data.dropWhile isPySpace = ':' :: cs) : itemMatch line = none := by
  unfold itemMatch
  by_cases he : (line.data.takeWhile isPySpace).isEmpty = true
  · rw [if_pos he]
  · rw [if_neg he, h]
    simp [show ¬((':' : Char) = '~') from by decide,
      show isNameStart ':' = false from by decide]

theorem matchOptLine_colon (opt line v : String) (os : List Char)
    (hopt : opt.data = ':' :: os) (h : matchOptLine opt line = some v) :
    ∃ cs, line.data.dropWhile isPySpace = ':' :: cs := by
  unfold matchOptLine at h
  by_cases he : (line.data.takeWhile isPySpace).isEmpty = true
  · rw [if_pos he] at h
    cases h
  · rw [if_neg he] at h
    by_cases hp : opt.data.isPrefixOf (line.data.dropWhile isPySpace) = true
    · rw [hopt] at hp
      rcases hd : line.data.dropWhile isPySpace with _ | ⟨r, rs⟩
      · rw [hd] at hp
        simp [List.isPrefixOf] at hp
      · rw [hd] at hp
        rw [List.isPrefixOf] at hp
        have hcr : (':' : Char) = r := by
          have h2 := (Bool.and_eq_true _ _).mp hp
          simpa using h2.1
        exact ⟨rs, by rw [← hcr]⟩
    · rw [if_neg hp] at h
      cases h

theorem pyStartsWith_colon (line : String)
    (h : pyStartsWith (pyStrip line) ":" = true) :
    ∃ cs, line.data.dropWhile isPySpace = ':' :: cs := by
  unfold pyStartsWith pyStrip at h
  rcases ht : pyTrimChars line.data with _ | ⟨x, xs⟩
  · rw [ht] at h
    simp [List.isPrefixOf] at h
  · rw [ht] at h
    have hx : (':' : Char) = x := by
      have h2 : ((":").data).isPrefixOf (x :: xs) = true := h
      rw [show (":").data = [':'] from rfl, List.isPrefixOf] at h2
      have h3 := (Bool.and_eq_true _ _).mp h2
      simpa using h3.1
    obtain ⟨ys, hys⟩ := pyTrimChars_head line.data x xs ht
    exact ⟨ys, by rw [← hx] at hys; exact hys⟩

theorem inAutoStep_exit_iff (fname : Option String) (st : FindSt) (line : String) :
    inAutoStep fname st line = StepRes.exit ↔ isContinuation st.baseIndent line = false := by
  unfold inAutoStep isContinuation
  cases h1 : matchOptLine ":toctree:" line with
  | some v => simp [h1]
  | none =>
  simp only [h1]
  cases h2 : matchOptLine ":members:" line with
  | some v => simp [h2]
  | none =>
  simp only [h2]
  cases h3 : matchOptLine ":exclude-members:" line with
  | some v => simp [h3]
  | none =>
  simp only [h3]
  cases h4 : matchOptLine ":private-members:" line with
  | some v => simp [h4]
  | none =>
  simp only [h4]
  by_cases h5 : pyStartsWith (pyStrip line) ":" = true
  · simp [h5]
  · have h5f : pyStartsWith (pyStrip line) ":" = false := by
      cases hb : pyStartsWith (pyStrip line) ":"
      · rfl
      · exact absurd hb h5
    rw [if_neg h5]
    simp only [h5f]
    cases h6 : itemMatch line with
    | some nm => simp [h6]
    | none =>
    simp only [h6]
    by_cases h7 : (decide (pyStrip line = "") || pyStartsWith line (st.baseIndent ++ " ")) = true
    · rw [if_pos (by simpa using h7)]
      simp [h7]
    · rw [if_neg (by simpa using h7)]
      simp only [Option.isSome_none, Bool.or_self, Bool.false_or]
      constructor
      · intro _
        cases hb : (decide (pyStrip line = "") || pyStartsWith line (st.baseIndent ++ " "))
        · rfl
        · exact absurd hb h7
      · intro _
        trivial

theorem inAutoStep_cont (fname : Option String) (st st2 : FindSt) (line : String)
    (h : inAutoStep fname st line = StepRes.cont st2) :
    itemMatch line = none ∧ st2.baseIndent = st.baseIndent
      ∧ optsOf st2 = optStep fname (optsOf st) line := by
  unfold inAutoStep at h
  cases h1 : matchOptLine ":toctree:" line with
  | some v =>
    rw [h1] at h
    simp only [StepRes.cont.injEq] at h
    obtain ⟨cs, hcs⟩ := matchOptLine_colon ":toctree:" line v _ rfl h1
    refine ⟨itemMatch_colon line cs hcs, ?_, ?_⟩
    · rw [← h]
    · rw [← h]
      unfold optStep
      rw [h1]
      rfl
  | none =>
  rw [h1] at h
  cases h2 : matchOptLine ":members:" line with
  | some v =>
    rw [h2] at h
    simp only [StepRes.cont.injEq] at h
    obtain ⟨cs, hcs⟩ := matchOptLine_colon ":members:" line v _ rfl h2
    refine ⟨itemMatch_colon line cs hcs, ?_, ?_⟩
    · rw [← h]
    · rw [← h]
      unfold optStep
      rw [h1, h2]
      rfl
  | none =>
  rw [h2] at h
  cases h3 : matchOptLine ":exclude-members:" line with
  | some v =>
    rw [h3] at h
    simp only [StepRes.cont.injEq] at h
    obtain ⟨cs, hcs⟩ := matchOptLine_colon ":exclude-members:" line v _ rfl h3
    refine ⟨itemMatch_colon line cs hcs, ?_, ?_⟩
    · rw [← h]
    · rw [← h]
      unfold optStep
      rw [h1, h2, h3]
      rfl
  | none =>
  rw [h3] at h
  cases h4 : matchOptLine ":private-members:" line with
  | some v =>
    rw [h4] at h
    simp only [StepRes.cont.injEq] at h
    obtain ⟨cs, hcs⟩ := matchOptLine_colon ":private-members:" line v _ rfl h4
    refine ⟨itemMatch_colon line cs hcs, ?_, ?_⟩
    · rw [← h]
    · rw [← h]
      unfold optStep
      rw [h1, h2, h3, h4]
      rfl
  | none =>
  rw [h4] at h
  by_cases h5 : pyStartsWith (pyStrip line) ":" = true
  · rw [if_pos h5] at h
    simp only [StepRes.cont.injEq] at h
    obtain ⟨cs, hcs⟩ := pyStartsWith_colon line h5
    refine ⟨itemMatch_colon line cs hcs, ?_, ?_⟩
    · rw [← h]
    · rw [← h]
      unfold optStep
      rw [h1, h2, h3, h4]
  · rw [if_neg h5] at h
    cases h6 : itemMatch line with
    | some nm =>
      rw [h6] at h
      cases h
    | none =>
    rw [h6] at h
    by_cases h7 : (decide (pyStrip line = "") || pyStartsWith line (st.baseIndent ++ " ")) = true
    · rw [if_pos (by simpa using h7)] at h
      simp only [StepRes.cont.injEq] at h
      refine ⟨rfl, ?_, ?_⟩
      · rw [← h]
      · rw [← h]
        unfold optStep
        rw [h1, h2, h3, h4]
    · rw [if_neg (by simpa using h7)] at h
      cases h

theorem inAutoStep_item (fname : Option String) (st : FindSt) (line : String) (nm : String)
    (h : inAutoStep fname st line = StepRes.item nm) :
    itemMatch line = some nm := by
  unfold inAutoStep at h
  cases h1 : matchOptLine ":toctree:" line with
  | some v =>
    rw [h1] at h
    cases h
  | none =>
  rw [h1] at h
  cases h2 : matchOptLine ":members:" line with
  | some v =>
    rw [h2] at h
    cases h
  | none =>
  rw [h2] at h
  cases h3 : matchOptLine ":exclude-members:" line with
  | some v =>
    rw [h3] at h
    cases h
  | none =>
  rw [h3] at h
  cases h4 : matchOptLine ":private-members:" line with
  | some v =>
    rw [h4] at h
    cases h
  | none =>
  rw [h4] at h
  by_cases h5 : pyStartsWith (pyStrip line) ":" = true
  · rw [if_pos h5] at h
    cases h
  · rw [if_neg h5] at h
    cases h6 : itemMatch line with
    | some nm2 =>
      rw [h6] at h
      cases h
      rfl
    | none =>
      rw [h6] at h
      by_cases h7 : (decide (pyStrip line = "") || pyStartsWith line (st.baseIndent ++ " ")) = true
      · rw [if_pos (by simpa using h7)] at h
        cases h
      · rw [if_neg (by simpa using h7)] at h
        cases h

theorem findAux_spec (fname : Option String) : ∀ (n : Nat) (lines : List String),
    lines.length ≤ n → ∀ st : FindSt,
      (findAux fname false st lines = specFind fname lines)
      ∧ (findAux fname true st lines
          = blockEntriesFrom fname (optsOf st) (lines.takeWhile (isContinuation st.baseIndent))
            ++ specFind fname (lines.dropWhile (isContinuation st.baseIndent))) := by
  intro n
  induction n with
  | zero =>
    intro lines hlen st
    have hnil : lines = [] := List.length_eq_zero.mp (Nat.le_zero.mp hlen)
    subst hnil
    exact ⟨by simp [findAux, specFind], by simp [findAux, specFind, blockEntriesFrom]⟩
  | succ n ih =>
    intro lines hlen st
    cases lines with
    | nil => exact ⟨by simp [findAux, specFind], by simp [findAux, specFind, blockEntriesFrom]⟩
    | cons l rest =>
      simp only [List.length_cons] at hlen
      have hrest : rest.length ≤ n := by omega
      constructor
      · cases hd : directiveIndent l with
        | some ind =>
          have hlhs : findAux fname false st (l :: rest)
              = findAux fname true (resetSt ind) rest := by
            simp only [findAux, hd]
          rw [hlhs, (ih rest hrest (resetSt ind)).2]
          conv_rhs => rw [specFind]
          rw [hd]
          rfl
        | none =>
          have hlhs : findAux fname false st (l :: rest) = findAux fname false st rest := by
            simp only [findAux, hd]
          rw [hlhs, (ih rest hrest st).1]
          conv_rhs => rw [specFind]
          rw [hd]
      · cases hs : inAutoStep fname st l with
        | cont st2 =>
          obtain ⟨hitem, hbase, hopts⟩ := inAutoStep_cont fname st st2 l hs
          have hcont : isContinuation st.baseIndent l = true := by
            cases hic : isContinuation st.baseIndent l
            · have := (inAutoStep_exit_iff fname st l).mpr hic
              rw [hs] at this
              cases this
            · rfl
          have hlhs : findAux fname true st (l :: rest) = findAux fname true st2 rest := by
            simp only [findAux, hs]
          rw [hlhs, (ih rest hrest st2).2, hbase]
          rw [List.takeWhile_cons, List.dropWhile_cons]
          rw [if_pos hcont, if_pos hcont]
          have hblock : blockEntriesFrom fname (optsOf st)
              (l :: rest.takeWhile (isContinuation st.baseIndent))
              = blockEntriesFrom fname (optsOf st2)
                  (rest.takeWhile (isContinuation st.baseIndent)) := by
            rw [blockEntriesFrom, hitem, ← hopts]
          rw [hblock]
        | item nm =>
          have hitem : itemMatch l = some nm := inAutoStep_item fname st l nm hs
          have hcont : isContinuation st.baseIndent l = true := by
            cases hic : isContinuation st.baseIndent l
            · have := (inAutoStep_exit_iff fname st l).mpr hic
              rw [hs] at this
              cases this
            · rfl
          have hlhs : findAux fname true st (l :: rest)
              = { name := nm, path := st.toctree, members := st.members,
                  excludeMembers := st.excludeMembers,
                  privateMembers := st.privateMembers }
                :: findAux fname true st rest := by
            simp only [findAux, hs]
          rw [hlhs, (ih rest hrest st).2]
          rw [List.takeWhile_cons, List.dropWhile_cons]
          rw [if_pos hcont, if_pos hcont]
          rw [blockEntriesFrom, hitem]
          rfl
        | exit =>
          have hcont : isContinuation st.baseIndent l = false :=
            (inAutoStep_exit_iff fname st l).mp hs
          rw [List.takeWhile_cons, List.dropWhile_cons]
          rw [if_neg (by simp [hcont]), if_neg (by simp [hcont])]
          rw [blockEntriesFrom]
          rw [List.nil_append]
          cases hd : directiveIndent l with
          | some ind =>
            have hlhs : findAux fname true st (l :: rest)
                = findAux fname true (resetSt ind) rest := by
              simp only [findAux, hs, hd]
            rw [hlhs, (ih rest hrest (resetSt ind)).2]
            conv_rhs => rw [specFind]
            rw [hd]
            rfl
          | none =>
            have hlhs : findAux fname true st (l :: rest) = findAux fname false st rest := by
              simp only [findAux, hs, hd]
            rw [hlhs, (ih rest hrest st).1]
            conv_rhs => rw [specFind]
            rw [hd]

/-- Counterexample to C6 as stated: with a filename argument whose
directory is not empty, the entry does not carry the toctree value
parsed by the regular expression (here foo) but that value joined onto
the directory of the filename (here docs/foo). -/
theorem find_automodules_toctree_counterexample :
    find_automodules_in_lines [".. js:automodules::", "   :toctree: foo", "   bar"] none
        (some "docs/index.rst")
      = [⟨"bar", "docs/foo", none, "", none⟩]
      ∧ matchOptLine ":toctree:" "   :toctree: foo" = some "foo"
      ∧ ("docs/foo" : String) ≠ "foo" :=
  ⟨by decide, by decide, by decide⟩

/-- C6 amended: find_automodules_in_lines returns exactly the entries of
its block structured specification: one entry per item line inside a
js:automodules block, carrying the option values accumulated by the
option regexes earlier in that block from the defaults toctree
_automodules, members None, exclude-members empty and private-members
None, with the parsed toctree value joined onto the directory of the
filename argument when a truthy filename was given. -/
theorem find_automodules_spec (lines : List String) (moduleArg filename : Option String) :
    find_automodules_in_lines lines moduleArg filename = specFind filename lines := by
  unfold find_automodules_in_lines
  exact (findAux_spec filename lines.length lines (le_refl _)
    { toctree := "", members := none, excludeMembers := "", privateMembers := none,
      baseIndent := "" }).1

/-- C7: find_automodules_in_lines is deterministic, a pure function of
its lines, module and filename arguments; equal runs give equal entry
lists, and the shallow embedding exhibits no other state it could read. -/
theorem find_automodules_deterministic (lines1 lines2 : List String)
    (m1 m2 f1 f2 : Option String) (h1 : lines1 = lines2) (h2 : m1 = m2) (h3 : f1 = f2) :
    find_automodules_in_lines lines1 m1 f1 = find_automodules_in_lines lines2 m2 f2 := by
  subst h1
  subst h2
  subst h3
  rfl

/-- Witness for find_automodules_deterministic at concrete arguments. -/
theorem find_automodules_deterministic_witness :
    find_automodules_in_lines [".. js:automodules::", "   m"] none (some "a.rst")
      = find_automodules_in_lines [".. js:automodules::", "   m"] none (some "a.rst") :=
  find_automodules_deterministic [".. js:automodules::", "   m"]
    [".. js:automodules::", "   m"] none none (some "a.rst") (some "a.rst") rfl rfl rfl

/-- Counterexample to C4 as stated: in an application state with no
source files at all and no source suffix supporting restructuredtext,
process_automodules returns without logging any warning. -/
theorem process_automodules_counterexample :
    (process_automodules
        { sources := [], sourceSuffixes := [".md"], parsers := [(".md", ["markdown"])],
          srcdir := "", fs := [], resolveName := fun _ => [],
          render := fun _ _ => "", abspath := fun s => s }).warnings = []
    ∧ get_rst_suffix [".md"] [(".md", ["markdown"])] = none :=
  ⟨rfl, by decide⟩

/-- C4 amended: whenever at least one source file exists and no
configured source suffix supports restructuredtext, process_automodules
logs the skip warning and returns normally, leaving the files unchanged
and generating no stub. -/
theorem process_automodules_no_rst (app : AppModel)
    (hs : app.sources ≠ [])
    (hr : get_rst_suffix app.sourceSuffixes app.parsers = none) :
    process_automodules app =
      { warnings := ["automodules generats .rst files internally. But your source_suffix does not contain .rst. Skipped."],
        fs := app.fs, docs := none } := by
  unfold process_automodules
  rw [if_neg (by simpa [List.isEmpty_iff] using hs), hr]

/-- Witness for process_automodules_no_rst at a concrete state. -/
theorem process_automodules_no_rst_witness :
    process_automodules
        { sources := ["a.rst"], sourceSuffixes := [".md"], parsers := [(".md", ["markdown"])],
          srcdir := "", fs := [("x", "y")], resolveName := fun _ => [],
          render := fun _ _ => "", abspath := fun s => s }
      = { warnings := ["automodules generats .rst files internally. But your source_suffix does not contain .rst. Skipped."],
          fs := [("x", "y")], docs := none } :=
  process_automodules_no_rst _ (by decide) (by decide)

/-- C5: for a non-excluded module whose stub file exists, the rendered
content is compared with the prior content; when equal the file is left
untouched and the entry is still appended to the generated list, and the
file system changes only when the content differs and overwrite is set
(under the existence hypothesis); the entry is appended in every
non-excluded case. -/
theorem process_module_frame (overwrite : Bool) (render : String → String)
    (excl dirPath suffix : String) (st : GenState) (m : String) (old : String)
    (hexcl : listInfixB m.data excl.data = false)
    (hex : fsLookup st.fs (pyJoin dirPath (m ++ suffix)) = some old) :
    (render m = old →
      process_module overwrite render excl dirPath suffix st m
        = { st with docs := st.docs
            ++ [⟨pyJoin dirPath (m ++ suffix), dirPath, m, suffix⟩] })
    ∧ ((process_module overwrite render excl dirPath suffix st m).fs ≠ st.fs →
        render m ≠ old ∧ overwrite = true)
    ∧ (process_module overwrite render excl dirPath suffix st m).docs
        = st.docs ++ [⟨pyJoin dirPath (m ++ suffix), dirPath, m, suffix⟩] := by
  unfold process_module
  rw [if_neg (by simp [hexcl])]
  simp only [hex]
  by_cases hc : render m = old
  · rw [if_pos hc]
    exact ⟨fun _ => rfl, fun hne => absurd rfl hne, rfl⟩
  · rw [if_neg hc]
    by_cases ho : overwrite = true
    · rw [if_pos ho]
      exact ⟨fun h2 => absurd h2 hc, fun _ => ⟨hc, ho⟩, rfl⟩
    · rw [if_neg ho]
      exact ⟨fun h2 => absurd h2 hc, fun hne => absurd rfl hne, rfl⟩

/-- Witness for process_module_frame: an up-to-date stub file is not
rewritten and its entry is still appended. -/
theorem process_module_frame_witness :
    process_module true (fun _ => "c") "" "d" ".rst"
        { fs := [("d/m.rst", "c")], docs := [] } "m"
      = { fs := [("d/m.rst", "c")], docs := [⟨"d/m.rst", "d", "m", ".rst"⟩] } := by
  have h := (process_module_frame true (fun _ => "c") "" "d" ".rst"
    { fs := [("d/m.rst", "c")], docs := [] } "m" "c" (by decide) (by decide)).1 rfl
  simpa using h
